import Mathlib

/-!
Verification development for the HGCL repository (single source file
`hgcl.py`).  The Python program trains a dual-view graph contrastive
model regularized by a denoising-diffusion auxiliary loss.  This file
gives a shallow embedding of the parts of the program the frozen claims
talk about:

* `build_knn_hypergraph` — the batched k-NN hypergraph builder
  (source lines 37–65), with cosine similarity over `ℝ` and a
  deterministic model of `torch.topk` (stable descending selection,
  ties resolved toward the lower index, matching the stable behaviour
  of the CPU kernel; tie behaviour is exactly what the hypergraph
  claims are about);
* `contrastive_loss` — the InfoNCE-style loss (lines 67–87);
* `HGCLEncoder.forward` — the dual-view encoder (lines 105–115), with
  the graph/hypergraph convolution primitives and layer norms treated
  as opaque learned functions, as the specification prescribes;
* `H_GCL.forward` — the model forward pass (lines 160–185), with the
  stochastic draws (feature mask, edge-drop decisions, diffusion
  timestep, Gaussian noise) passed in as explicit inputs;
* the training loop's best-state update / early stopping state machine
  (lines 262–321), over `ℚ`-valued accuracies and `Option ℚ`-valued
  losses (`none` models a non-finite training loss; the initial best
  loss `float('inf')` is likewise `none`).

Machine floats are modelled by real (resp. rational) numbers; gradient
bookkeeping (`detach`, autograd) is out of scope and `detach` is the
identity on values.
-/

/-! ## Configuration constants (source lines 15-29) -/

def NUM_EPOCHS : ℕ := 500

def TEMPERATURE : ℝ := 0.7

def T_DIFFUSION : ℕ := 20

def BETA_START : ℝ := 0.0001

def BETA_END : ℝ := 0.02

def GAMMA : ℝ := 0.8

def KNN_K : ℕ := 15

def PATIENCE : ℕ := 30

def BATCH_SIZE_KNN : ℕ := 512

/-! ## Training loop state machine (source lines 262-321)

The loop body is deterministic given the per-epoch observations
(validation accuracy, training loss, validation embedding), so we model
one epoch as a step function on the mutable training state and the loop
as a fold with early exit.  Accuracies returned by `accuracy_score` are
rationals in `[0,1]`; `loss.item()` is a float, modelled as `Option ℚ`
where `none` stands for a non-finite (`inf`) value, which is also the
initial `best_loss = float('inf')`. -/

/-- One epoch's observations: `val_acc = evaluate(val_emb, val_mask)`,
`loss = loss.item()` of the training step, and the validation embedding
`val_emb` (abstract type `α`). -/
structure Epoch (α : Type) where
  val_acc : ℚ
  loss : Option ℚ
  emb : α
  deriving DecidableEq, Repr

/-- The loop-carried mutable state: `best_val_acc`, `best_loss`
(`none` = `float('inf')`), `best_emb` (`none` = Python `None`),
`patience_counter` and `test_acc`. -/
structure TrainState (α : Type) where
  best_val_acc : ℚ
  best_loss : Option ℚ
  best_emb : Option α
  patience_counter : ℕ
  test_acc : ℚ
  deriving DecidableEq, Repr

/-- Comparison `l < b` on losses: a non-finite loss is never smaller,
and every finite loss is smaller than the initial `float('inf')`. -/
def lossLt : Option ℚ → Option ℚ → Bool
  | none, _ => false
  | some _, none => true
  | some a, some b => decide (a < b)

/-- Initial state (source lines 262-266): `best_val_acc = 0`,
`best_emb = None`, `patience_counter = 0`, `test_acc = 0.0`,
`best_loss = float('inf')`. -/
def initTrainState {α : Type} : TrainState α :=
  { best_val_acc := 0, best_loss := none, best_emb := none
    patience_counter := 0, test_acc := 0 }

/-- One iteration of the best-state tracking (source lines 294-308).
`evalTest` models `evaluate(·, data, data.test_mask)`, deterministic on
a fixed embedding. -/
def epochStep {α : Type} (evalTest : α → ℚ) (s : TrainState α) (e : Epoch α) :
    TrainState α :=
  if s.best_val_acc < e.val_acc then
    { best_val_acc := e.val_acc, best_emb := some e.emb
      patience_counter := 0, test_acc := evalTest e.emb, best_loss := e.loss }
  else if e.val_acc = s.best_val_acc ∧ lossLt e.loss s.best_loss then
    { s with best_emb := some e.emb, test_acc := evalTest e.emb
             best_loss := e.loss, patience_counter := 0 }
  else
    { s with patience_counter := s.patience_counter + 1 }

/-- The epoch loop (source lines 269-316): process epochs in order,
breaking as soon as `patience_counter >= PATIENCE` at the end of an
epoch body.  Returns the final state together with the number of epochs
actually executed. -/
def runLoop {α : Type} (evalTest : α → ℚ) (patience : ℕ) :
    TrainState α → List (Epoch α) → TrainState α × ℕ
  | s, [] => (s, 0)
  | s, e :: es =>
    let s' := epochStep evalTest s e
    if patience ≤ s'.patience_counter then (s', 1)
    else
      let r := runLoop evalTest patience s' es
      (r.1, r.2 + 1)

/-- Characterization of the early stop used to state claim C2: the
1-based index of the first epoch after which the stagnation counter has
reached `patience`, if any. -/
def firstStop {α : Type} (evalTest : α → ℚ) (patience : ℕ) :
    TrainState α → List (Epoch α) → Option ℕ
  | _, [] => none
  | s, e :: es =>
    let s' := epochStep evalTest s e
    if patience ≤ s'.patience_counter then some 1
    else (firstStop evalTest patience s' es).map (· + 1)

/-- The final best embedding of a run (source lines 319-321): after the
loop, `if best_emb is None: best_emb = val_emb.copy()` where `val_emb`
is the variable holding the validation embedding of the most recently
executed epoch. -/
def trainFinalBest {α : Type} (evalTest : α → ℚ) (patience : ℕ)
    (es : List (Epoch α)) : Option α :=
  let r := runLoop evalTest patience initTrainState es
  match r.1.best_emb with
  | some b => some b
  | none => ((es.take r.2).getLast?).map Epoch.emb

/-! ## Helper lemmas for the training loop claims -/

theorem runLoop_pos {α : Type} (evalTest : α → ℚ) (patience : ℕ)
    (s : TrainState α) (es : List (Epoch α)) (hne : es ≠ []) :
    1 ≤ (runLoop evalTest patience s es).2 := by
  cases es with
  | nil => exact absurd rfl hne
  | cons e es =>
    simp only [runLoop]
    split
    · exact le_refl 1
    · exact Nat.le_add_left 1 _

theorem runLoop_le_length {α : Type} (evalTest : α → ℚ) (patience : ℕ)
    (s : TrainState α) (es : List (Epoch α)) :
    (runLoop evalTest patience s es).2 ≤ es.length := by
  induction es generalizing s with
  | nil => exact le_refl 0
  | cons e es ih =>
    simp only [runLoop, List.length_cons]
    split
    · exact Nat.le_add_left 1 _
    · exact Nat.add_le_add_right (ih _) 1

theorem take_getLast?_eq {α : Type} (l : List α) (m : ℕ) (h1 : 1 ≤ m)
    (h2 : m ≤ l.length) : (l.take m).getLast? = l[m - 1]? := by
  rw [List.getLast?_eq_getElem?, List.length_take, min_eq_left h2,
    List.getElem?_take, if_pos (Nat.sub_lt h1 Nat.one_pos)]

/-! ## Claims C2 and C3 -/

/-- Claim C2: per epoch, the best state is updated exactly when
validation accuracy strictly exceeds the best-so-far, or ties it with a
strictly smaller training loss; either update branch zeroes the
stagnation counter, stores the epoch's validation embedding as the new
best and re-evaluates test accuracy on it; any other outcome only
increments the counter; and the loop stops after the first epoch at
which the counter reaches the patience threshold, otherwise running the
whole epoch list — in particular with patience 1 and no improvement
after epoch 1 it stops at epoch 2. -/
theorem claim_C2 {α : Type} (evalTest : α → ℚ) :
    (∀ (s : TrainState α) (e : Epoch α),
        s.best_val_acc < e.val_acc ∨
          (e.val_acc = s.best_val_acc ∧ lossLt e.loss s.best_loss) →
        (epochStep evalTest s e).patience_counter = 0 ∧
        (epochStep evalTest s e).best_emb = some e.emb ∧
        (epochStep evalTest s e).best_loss = e.loss ∧
        (epochStep evalTest s e).test_acc = evalTest e.emb) ∧
    (∀ (s : TrainState α) (e : Epoch α),
        ¬(s.best_val_acc < e.val_acc ∨
          (e.val_acc = s.best_val_acc ∧ lossLt e.loss s.best_loss)) →
        epochStep evalTest s e =
          { s with patience_counter := s.patience_counter + 1 }) ∧
    (∀ (patience : ℕ) (s : TrainState α) (es : List (Epoch α)),
        (runLoop evalTest patience s es).2 =
          (firstStop evalTest patience s es).getD es.length) ∧
    (runLoop (fun _ : ℕ => (0 : ℚ)) 1 initTrainState
        [⟨1, some 1, 0⟩, ⟨1, some 1, 1⟩, ⟨1, some 1, 2⟩,
          ⟨1, some 1, 3⟩]).2 = 2 := by
  refine ⟨?_, ?_, ?_, by decide⟩
  · intro s e h
    rcases h with h | h
    · simp only [epochStep]
      rw [if_pos h]
      exact ⟨rfl, rfl, rfl, rfl⟩
    · have hlt : ¬ s.best_val_acc < e.val_acc := by
        rw [h.1]
        exact lt_irrefl _
      simp only [epochStep]
      rw [if_neg hlt, if_pos h]
      exact ⟨rfl, rfl, rfl, rfl⟩
  · intro s e h
    rw [not_or] at h
    simp only [epochStep]
    rw [if_neg h.1, if_neg h.2]
  · intro patience s es
    induction es generalizing s with
    | nil => rfl
    | cons e es ih =>
      simp only [runLoop, firstStop, List.length_cons]
      split
      · rfl
      · rw [ih]
        cases firstStop evalTest patience (epochStep evalTest s e) es with
        | none => rfl
        | some m => rfl

/-- Witness for C2: at the first epoch with validation accuracy `1`
(strictly above the initial best `0`), the update branch fires, resets
the counter, stores the embedding and re-evaluates test accuracy. -/
theorem claim_C2_witness :
    ((initTrainState (α := ℕ)).best_val_acc < (1 : ℚ) ∨
      ((1 : ℚ) = (initTrainState (α := ℕ)).best_val_acc ∧
        lossLt (some 1) (initTrainState (α := ℕ)).best_loss)) ∧
    (epochStep (fun _ : ℕ => (0 : ℚ)) initTrainState ⟨1, some 1, 5⟩).patience_counter = 0 ∧
    (epochStep (fun _ : ℕ => (0 : ℚ)) initTrainState ⟨1, some 1, 5⟩).best_emb = some 5 ∧
    (epochStep (fun _ : ℕ => (0 : ℚ)) initTrainState ⟨1, some 1, 5⟩).test_acc = 0 := by
  have hcond : (initTrainState (α := ℕ)).best_val_acc < (1 : ℚ) := by decide
  have h := (claim_C2 (fun _ : ℕ => (0 : ℚ))).1 initTrainState ⟨1, some 1, 5⟩
    (Or.inl hcond)
  exact ⟨Or.inl hcond, h.1, h.2.1, h.2.2.2⟩

/-- A run in which no best-state update is ever recorded: validation
accuracy stays at the initial best `0` and the training loss is
non-finite at every epoch, so neither update branch fires. -/
def esC3 : List (Epoch ℕ) := [⟨0, none, 10⟩, ⟨0, none, 20⟩]

/-- Counterexample to claim C3: in a run where the best embedding is
still unset when the loop ends, the fallback initializes it from the
validation embedding of the LAST executed epoch (here `20`), not from
the very first computed validation embedding (here `10`). -/
theorem claim_C3_counterexample :
    (runLoop (fun _ : ℕ => (0 : ℚ)) PATIENCE initTrainState esC3).1.best_emb = none ∧
    trainFinalBest (fun _ : ℕ => (0 : ℚ)) PATIENCE esC3 = some 20 ∧
    (esC3.map Epoch.emb).head? = some 10 ∧
    trainFinalBest (fun _ : ℕ => (0 : ℚ)) PATIENCE esC3 ≠ some 10 := by decide

/-- Claim C3 (amended): if no best-state update was ever recorded, the
best embedding is initialized from the validation embedding of the last
executed epoch (the most recently computed one). -/
theorem claim_C3_amended {α : Type} (evalTest : α → ℚ) (patience : ℕ)
    (es : List (Epoch α)) (hne : es ≠ [])
    (hnone : (runLoop evalTest patience initTrainState es).1.best_emb = none) :
    1 ≤ (runLoop evalTest patience initTrainState es).2 ∧
    (runLoop evalTest patience initTrainState es).2 ≤ es.length ∧
    trainFinalBest evalTest patience es =
      es[(runLoop evalTest patience initTrainState es).2 - 1]?.map Epoch.emb := by
  have h1 := runLoop_pos evalTest patience initTrainState es hne
  have h2 := runLoop_le_length evalTest patience initTrainState es
  refine ⟨h1, h2, ?_⟩
  simp only [trainFinalBest, hnone]
  rw [take_getLast?_eq _ _ h1 h2]

/-- Witness for the amended C3 at the concrete stagnant run `esC3`. -/
theorem claim_C3_amended_witness :
    trainFinalBest (fun _ : ℕ => (0 : ℚ)) PATIENCE esC3 =
      esC3[(runLoop (fun _ : ℕ => (0 : ℚ)) PATIENCE initTrainState esC3).2 - 1]?.map
        Epoch.emb :=
  (claim_C3_amended (fun _ : ℕ => (0 : ℚ)) PATIENCE esC3 (by decide)
    (by decide)).2.2

/-! ## k-NN hypergraph builder (source lines 37-65)

Features are an `N × d` real matrix.  `F.cosine_similarity` is embedded
with its documented formula (dot product over the product of L2 norms
clamped below by `eps = 1e-8`).  `torch.topk(·, k+1, dim=1)` is
modelled as a stable descending sort of the column indices by
similarity followed by `take (k+1)`; on exactly equal keys the stable
sort keeps the original (lower-index-first) order, which is the
deterministic tie behaviour of the CPU kernel and the situation the
hypergraph claims single out.  `torch.topk` raises a `RuntimeError`
when `k+1` exceeds the dimension size, modelled by returning `none`
(this also covers `torch.cat` of an empty batch list when `N = 0`). -/

noncomputable def cosEps : ℝ := 1 / 10 ^ 8

/-- Cosine similarity of rows `i` and `j` of `x` (source lines 45-49). -/
noncomputable def sims {N d : ℕ} (x : Fin N → Fin d → ℝ) (i j : Fin N) : ℝ :=
  (∑ t, x i t * x j t) /
    max (Real.sqrt (∑ t, x i t ^ 2) * Real.sqrt (∑ t, x j t ^ 2)) cosEps

/-- Stable descending insertion: the inserted element passes an
existing one only when that one's key is strictly larger. -/
def insertDesc {α β : Type} [LinearOrder α] (key : β → α) (b : β) :
    List β → List β
  | [] => [b]
  | c :: cs => if key b < key c then c :: insertDesc key b cs else b :: c :: cs

/-- Stable descending insertion sort (the order in which equal
similarities are reported by the modelled `torch.topk`). -/
def sortDesc {α β : Type} [LinearOrder α] (key : β → α) : List β → List β
  | [] => []
  | b :: bs => insertDesc key b (sortDesc key bs)

/-- One row of `topk.indices[:, 1:]` (source lines 51-52): the `k+1`
highest-similarity column indices, with the positional first entry
dropped — NOT the self index by identity. -/
noncomputable def rowTopkDrop {N d : ℕ} (x : Fin N → Fin d → ℝ) (k : ℕ) (i : Fin N) :
    List (Fin N) :=
  ((sortDesc (fun j => sims x i j) (List.finRange N)).take (k + 1)).drop 1

/-- `build_knn_hypergraph(x, k)` (source lines 37-65) with batch size
`B` (the source fixes `B = BATCH_SIZE_KNN`): rows are processed in
contiguous batches `x[i:i+B]`, each row's top `k+1` similarities are
selected and the positional first entry dropped, the per-batch results
are concatenated, and finally every node `i` is paired with each of its
`k` stored neighbours.  Returns the incidence pair list, or `none` for
the `torch.topk` error when `k + 1 > N`. -/
noncomputable def build_knn_hypergraph {N d : ℕ} (B : ℕ) (x : Fin N → Fin d → ℝ)
    (k : ℕ) : Option (List (ℕ × ℕ)) :=
  if k + 1 ≤ N then
    let chunks : List (List (Fin N)) :=
      (List.range ((N + B - 1) / B)).map
        (fun c => ((List.finRange N).drop (c * B)).take B)
    let indices : List (List (Fin N)) :=
      chunks.flatMap (fun ch => ch.map (rowTopkDrop x k))
    some ((List.range N).flatMap
      (fun i => (indices.getD i []).map (fun j => (i, j.val))))
  else none

/-- Batch-size-independent row-major normal form of the builder
output. -/
noncomputable def buildFlat {N d : ℕ} (x : Fin N → Fin d → ℝ) (k : ℕ) : List (ℕ × ℕ) :=
  (List.finRange N).flatMap
    (fun i => (rowTopkDrop x k i).map (fun j => (i.val, j.val)))

/-! ### Chunking and sorting lemmas -/

theorem range_chunks_flatMap {γ : Type} (B : ℕ) (hB : 0 < B) (l : List γ) :
    (List.range ((l.length + B - 1) / B)).flatMap
      (fun c => (l.drop (c * B)).take B) = l := by
  suffices h : ∀ (fuel : ℕ) (l' : List γ), l'.length ≤ fuel →
      (List.range ((l'.length + B - 1) / B)).flatMap
        (fun c => (l'.drop (c * B)).take B) = l' from h l.length l le_rfl
  intro fuel
  induction fuel with
  | zero =>
    intro l' hl'
    have : l' = [] := List.eq_nil_of_length_eq_zero (Nat.le_zero.mp hl')
    subst this
    simp
  | succ n ih =>
    intro l' hl'
    cases l' with
    | nil => simp
    | cons a as =>
      have hL : 1 ≤ (a :: as).length := Nat.succ_le_succ (Nat.zero_le _)
      have h1 : ((a :: as).length + B - 1) / B = ((a :: as).length - 1) / B + 1 := by
        rw [show (a :: as).length + B - 1 = ((a :: as).length - 1) + B by omega,
          Nat.add_div_right _ hB]
      have h2 : (((a :: as).drop B).length + B - 1) / B = ((a :: as).length - 1) / B := by
        rw [List.length_drop]
        by_cases hbl : B ≤ (a :: as).length
        · rw [show (a :: as).length - B + B - 1 = (a :: as).length - 1 by omega]
        · rw [show (a :: as).length - B + B - 1 = B - 1 by omega,
            Nat.div_eq_of_lt (by omega), Nat.div_eq_of_lt (by omega)]
      rw [h1, List.range_succ_eq_map]
      simp only [List.flatMap_cons, Nat.zero_mul, List.drop_zero,
        List.flatMap_map]
      have hstep : ∀ c : ℕ, ((a :: as).drop ((c + 1) * B)).take B =
          (((a :: as).drop B).drop (c * B)).take B := by
        intro c
        rw [List.drop_drop, Nat.succ_mul, Nat.add_comm (c * B) B]
      calc ((a :: as).take B) ++
            (List.range (((a :: as).length - 1) / B)).flatMap
              (fun c => ((a :: as).drop ((c + 1) * B)).take B)
          = ((a :: as).take B) ++
            (List.range (((a :: as).length - 1) / B)).flatMap
              (fun c => (((a :: as).drop B).drop (c * B)).take B) := by
            rw [funext hstep]
        _ = ((a :: as).take B) ++ ((a :: as).drop B) := by
            rw [← h2, ih ((a :: as).drop B) (by
              rw [List.length_drop]
              simp only [List.length_cons] at hl' ⊢
              omega)]
        _ = a :: as := List.take_append_drop B (a :: as)

theorem insertDesc_perm {α β : Type} [LinearOrder α] (key : β → α) (b : β)
    (l : List β) : (insertDesc key b l).Perm (b :: l) := by
  induction l with
  | nil => exact List.Perm.refl _
  | cons c cs ih =>
    simp only [insertDesc]
    split
    · exact (ih.cons c).trans (List.Perm.swap b c cs)
    · exact List.Perm.refl _

theorem sortDesc_perm {α β : Type} [LinearOrder α] (key : β → α)
    (l : List β) : (sortDesc key l).Perm l := by
  induction l with
  | nil => exact List.Perm.refl _
  | cons b bs ih =>
    exact (insertDesc_perm key b (sortDesc key bs)).trans (ih.cons b)

theorem insertDesc_of_lt_all {α β : Type} [LinearOrder α] (key : β → α)
    (b : β) (l : List β) (h : ∀ c ∈ l, key c < key b) :
    insertDesc key b l = b :: l := by
  cases l with
  | nil => rfl
  | cons c cs =>
    simp only [insertDesc]
    rw [if_neg (lt_asymm (h c (List.mem_cons_self c cs)))]

theorem sortDesc_head_max {α β : Type} [LinearOrder α] (key : β → α)
    (l : List β) (a : β) (hnd : l.Nodup) (ha : a ∈ l)
    (hmax : ∀ c ∈ l, c ≠ a → key c < key a) :
    ∃ rest, sortDesc key l = a :: rest := by
  induction l with
  | nil => cases ha
  | cons b bs ih =>
    rcases List.mem_cons.mp ha with hb | hb
    · subst hb
      have hnotin : a ∉ bs := (List.nodup_cons.mp hnd).1
      have hlt : ∀ c ∈ sortDesc key bs, key c < key a := by
        intro c hc
        have hcbs : c ∈ bs := (sortDesc_perm key bs).mem_iff.mp hc
        refine hmax c (List.mem_cons_of_mem _ hcbs) ?_
        rintro rfl
        exact hnotin hcbs
      refine ⟨sortDesc key bs, ?_⟩
      simp only [sortDesc]
      exact insertDesc_of_lt_all key a (sortDesc key bs) hlt
    · have hnd' : bs.Nodup := (List.nodup_cons.mp hnd).2
      have hba : b ≠ a := by
        rintro rfl
        exact (List.nodup_cons.mp hnd).1 hb
      obtain ⟨rest, hrest⟩ := ih hnd' hb
        (fun c hc hca => hmax c (List.mem_cons_of_mem _ hc) hca)
      refine ⟨insertDesc key b rest, ?_⟩
      simp only [sortDesc, hrest, insertDesc]
      rw [if_pos (hmax b (List.mem_cons_self b bs) hba)]

theorem length_sortDesc {α β : Type} [LinearOrder α] (key : β → α)
    (l : List β) : (sortDesc key l).length = l.length :=
  (sortDesc_perm key l).length_eq

/-! ### Normal form of the builder -/

theorem build_knn_none {N d : ℕ} (B : ℕ) (x : Fin N → Fin d → ℝ) (k : ℕ)
    (h : ¬ k + 1 ≤ N) : build_knn_hypergraph B x k = none :=
  if_neg h

theorem build_knn_some {N d : ℕ} (B : ℕ) (x : Fin N → Fin d → ℝ) (k : ℕ)
    (hB : 0 < B) (hk : k + 1 ≤ N) :
    build_knn_hypergraph B x k = some (buildFlat x k) := by
  simp only [build_knn_hypergraph, if_pos hk]
  congr 1
  have hchunks : ((List.range ((N + B - 1) / B)).map
        (fun c => ((List.finRange N).drop (c * B)).take B)).flatMap
      (fun ch => ch.map (rowTopkDrop x k)) =
      (List.finRange N).map (rowTopkDrop x k) := by
    rw [List.flatMap_map]
    have hmt : ∀ c : ℕ, (((List.finRange N).drop (c * B)).take B).map
        (rowTopkDrop x k) =
        ((((List.finRange N).map (rowTopkDrop x k)).drop (c * B)).take B) := by
      intro c
      rw [List.map_take, List.map_drop]
    calc (List.range ((N + B - 1) / B)).flatMap
          (fun c => (((List.finRange N).drop (c * B)).take B).map
            (rowTopkDrop x k))
        = (List.range ((N + B - 1) / B)).flatMap
          (fun c => ((((List.finRange N).map (rowTopkDrop x k)).drop
            (c * B)).take B)) := by rw [funext hmt]
      _ = (List.finRange N).map (rowTopkDrop x k) := by
          have hlen : ((List.finRange N).map (rowTopkDrop x k)).length = N := by
            rw [List.length_map, List.length_finRange]
          rw [show N + B - 1 =
              ((List.finRange N).map (rowTopkDrop x k)).length + B - 1 by
            rw [hlen]]
          exact range_chunks_flatMap B hB _
  rw [hchunks]
  rw [show List.range N = (List.finRange N).map Fin.val from
    (List.map_coe_finRange N).symm]
  rw [List.flatMap_map]
  refine congrArg (List.flatMap (List.finRange N)) (funext fun i => ?_)
  have hget : ((List.finRange N).map (rowTopkDrop x k)).getD i.val [] =
      rowTopkDrop x k i := by
    rw [List.getD_eq_getElem?_getD, List.getElem?_map]
    have hfr : (List.finRange N)[i.val]? = some i := by
      rw [List.getElem?_eq_getElem (by simp)]
      simp [Fin.ext_iff]
    rw [hfr]
    rfl
  rw [hget]

theorem rowTopkDrop_length {N d : ℕ} (x : Fin N → Fin d → ℝ) (k : ℕ)
    (i : Fin N) (hk : k + 1 ≤ N) : (rowTopkDrop x k i).length = k := by
  rw [rowTopkDrop, List.length_drop, List.length_take, length_sortDesc,
    List.length_finRange]
  omega

theorem rowTopkDrop_not_self {N d : ℕ} (x : Fin N → Fin d → ℝ) (k : ℕ)
    (i : Fin N) (hstrict : ∀ j : Fin N, j ≠ i → sims x i j < sims x i i) :
    i ∉ rowTopkDrop x k i := by
  obtain ⟨rest, hrest⟩ := sortDesc_head_max (fun j => sims x i j)
    (List.finRange N) i (List.nodup_finRange N) (List.mem_finRange i)
    (fun c _ hc => hstrict c hc)
  have hnd : (sortDesc (fun j => sims x i j) (List.finRange N)).Nodup :=
    (sortDesc_perm (fun j => sims x i j) (List.finRange N)).symm.nodup
      (List.nodup_finRange N)
  rw [hrest] at hnd
  have hnotin : i ∉ rest := (List.nodup_cons.mp hnd).1
  rw [rowTopkDrop, hrest]
  intro hmem
  exact hnotin (List.mem_of_mem_take (by
    rw [List.take_succ_cons] at hmem
    rw [List.drop_one] at hmem
    simpa using hmem))

theorem buildFlat_length {N d : ℕ} (x : Fin N → Fin d → ℝ) (k : ℕ)
    (hk : k + 1 ≤ N) : (buildFlat x k).length = N * k := by
  rw [buildFlat, List.length_flatMap]
  have hmap : (List.finRange N).map
      (List.length ∘ fun i => (rowTopkDrop x k i).map (fun j => (i.val, j.val))) =
      (List.finRange N).map (fun _ => k) := by
    refine List.map_congr_left (fun i _ => ?_)
    simp only [Function.comp_apply, List.length_map]
    exact rowTopkDrop_length x k i hk
  rw [hmap, List.map_const', List.length_finRange, List.sum_replicate,
    smul_eq_mul]

theorem buildFlat_no_self {N d : ℕ} (x : Fin N → Fin d → ℝ) (k : ℕ)
    (hstrict : ∀ i j : Fin N, j ≠ i → sims x i j < sims x i i) :
    ∀ p ∈ buildFlat x k, p.1 ≠ p.2 := by
  intro p hp
  rw [buildFlat, List.mem_flatMap] at hp
  obtain ⟨i, _, hpi⟩ := hp
  rw [List.mem_map] at hpi
  obtain ⟨j, hj, rfl⟩ := hpi
  intro hval
  have hij : j = i := Fin.val_injective hval.symm
  subst hij
  exact rowTopkDrop_not_self x k j (fun j' hj' => hstrict j j' hj') hj

/-! ## Claims C1, C5, C6 -/

/-- Two 1-feature nodes with exactly proportional (hence
cosine-identical) feature rows: every pairwise cosine similarity is
exactly 1, producing the tie situation the spec flags. -/
noncomputable def xC : Fin 2 → Fin 1 → ℝ := fun i _ => if i = 0 then 1 else 2

theorem simsxC (i j : Fin 2) : sims xC i j = 1 := by
  have h1 : Real.sqrt (1 : ℝ) = 1 := Real.sqrt_one
  have h4 : Real.sqrt (4 : ℝ) = 2 := by
    rw [show (4 : ℝ) = 2 ^ 2 by norm_num, Real.sqrt_sq (by norm_num)]
  fin_cases i <;> fin_cases j <;>
    norm_num [sims, xC, cosEps, Fin.sum_univ_one, h1, h4, max_eq_left]

theorem buildFlat_xC : buildFlat xC 1 = [(0, 1), (1, 1)] := by
  have hfr : List.finRange 2 = [(0 : Fin 2), 1] := rfl
  have hrow : ∀ i : Fin 2, rowTopkDrop xC 1 i = [1] := by
    intro i
    rw [rowTopkDrop, hfr]
    simp only [sortDesc, insertDesc, simsxC]
    rw [if_neg (lt_irrefl (1 : ℝ))]
    rfl
  rw [buildFlat, hfr]
  simp only [List.flatMap_cons, List.flatMap_nil, List.append_nil, hrow]
  rfl

/-- Counterexample to claim C1: on two nodes whose single features are
`1` and `2` (cosine similarity exactly 1 everywhere), the builder with
`k = 1` returns the pair `(1, 1)` — node 1 paired with itself — because
row 1's positional top-1 under the stable tie order is node 0, so
dropping column 0 drops a wrong neighbour instead of self. -/
theorem claim_C1_counterexample :
    build_knn_hypergraph BATCH_SIZE_KNN xC 1 = some [(0, 1), (1, 1)] ∧
    ¬ ∀ p ∈ [((0 : ℕ), (1 : ℕ)), (1, 1)], p.1 ≠ p.2 := by
  constructor
  · rw [build_knn_some BATCH_SIZE_KNN xC 1 (by norm_num [BATCH_SIZE_KNN])
      (by norm_num), buildFlat_xC]
  · decide

/-- Claim C1 (amended): for `k < N` the builder returns exactly `N·k`
incidence pairs; and no pair is a self-pair PROVIDED every node's
self-similarity strictly exceeds its similarity to every other node —
under exact cosine ties the positional drop of column 0 can return
self-pairs. -/
theorem claim_C1_amended {N d : ℕ} (x : Fin N → Fin d → ℝ) (k : ℕ)
    (hk : k + 1 ≤ N) :
    ∃ ps, build_knn_hypergraph BATCH_SIZE_KNN x k = some ps ∧
      ps.length = N * k ∧
      ((∀ i j : Fin N, j ≠ i → sims x i j < sims x i i) →
        ∀ p ∈ ps, p.1 ≠ p.2) :=
  ⟨buildFlat x k,
    build_knn_some BATCH_SIZE_KNN x k (by norm_num [BATCH_SIZE_KNN]) hk,
    buildFlat_length x k hk, fun hs => buildFlat_no_self x k hs⟩

/-- Two 2-feature nodes with orthogonal unit feature rows: every node's
self-similarity (1) strictly dominates its similarity to the other
node (0). -/
noncomputable def xW : Fin 2 → Fin 2 → ℝ := fun i j => if i = j then 1 else 0

theorem simsxW_strict (i j : Fin 2) (hij : j ≠ i) : sims xW i j < sims xW i i := by
  have h1 : Real.sqrt (1 : ℝ) = 1 := Real.sqrt_one
  fin_cases i <;> fin_cases j <;>
    simp_all [sims, xW, cosEps, Fin.sum_univ_two, h1]

/-- Witness for the amended C1: at the orthogonal two-node input the
hypotheses hold, and the builder returns `2·1 = 2` pairs with no
self-pair. -/
theorem claim_C1_witness :
    1 + 1 ≤ 2 ∧
    (∀ i j : Fin 2, j ≠ i → sims xW i j < sims xW i i) ∧
    ∃ ps, build_knn_hypergraph BATCH_SIZE_KNN xW 1 = some ps ∧
      ps.length = 2 * 1 ∧ ∀ p ∈ ps, p.1 ≠ p.2 := by
  have hstrict : ∀ i j : Fin 2, j ≠ i → sims xW i j < sims xW i i :=
    fun i j h => simsxW_strict i j h
  obtain ⟨ps, hsome, hlen, hns⟩ := claim_C1_amended xW 1 (by norm_num)
  exact ⟨by norm_num, hstrict, ps, hsome, hlen, hns hstrict⟩

/-- Claim C5: for any two positive batch sizes the builder produces
identical output — batching only partitions the row range, and each
row's similarities, top-(k+1) selection and positional drop are
computed from the full feature matrix regardless of the partition. -/
theorem claim_C5 {N d : ℕ} (x : Fin N → Fin d → ℝ) (k : ℕ) (B1 B2 : ℕ)
    (h1 : 0 < B1) (h2 : 0 < B2) :
    build_knn_hypergraph B1 x k = build_knn_hypergraph B2 x k := by
  by_cases hk : k + 1 ≤ N
  · rw [build_knn_some B1 x k h1 hk, build_knn_some B2 x k h2 hk]
  · rw [build_knn_none B1 x k hk, build_knn_none B2 x k hk]

/-- Witness for C5: batch size 1 and the source's batch size 512 agree
on a concrete input. -/
theorem claim_C5_witness :
    0 < 1 ∧ 0 < BATCH_SIZE_KNN ∧
    build_knn_hypergraph 1 xC 1 = build_knn_hypergraph BATCH_SIZE_KNN xC 1 :=
  ⟨by norm_num, by norm_num [BATCH_SIZE_KNN],
    claim_C5 xC 1 1 BATCH_SIZE_KNN (by norm_num) (by norm_num [BATCH_SIZE_KNN])⟩

/-- Claim C6: with `k ≥ N` (fewer than `k+1` candidate columns) the
builder fails — `torch.topk(..., k+1)` raises rather than silently
truncating the neighbour list, modelled by the `none` result. -/
theorem claim_C6 {N d : ℕ} (x : Fin N → Fin d → ℝ) (k : ℕ) (h : N ≤ k) :
    build_knn_hypergraph BATCH_SIZE_KNN x k = none :=
  build_knn_none BATCH_SIZE_KNN x k (by omega)

/-- Witness for C6 at a one-node input with `k = 1`. -/
theorem claim_C6_witness :
    (1 : ℕ) ≤ 1 ∧
    build_knn_hypergraph BATCH_SIZE_KNN (fun _ _ : Fin 1 => (0 : ℝ)) 1 = none :=
  ⟨le_rfl, claim_C6 (fun _ _ : Fin 1 => (0 : ℝ)) 1 le_rfl⟩

/-! ## Contrastive loss (source lines 67-87)

`F.normalize(z, dim=1)` divides each row by `max(‖row‖₂, 1e-12)`.  The
positive scores are the scaled diagonal dot products; the negative
matrix is `z1 z2ᵀ / τ` with the diagonal overwritten by `-9e15` AFTER
the temperature scaling (exactly as `masked_fill` runs on the already
scaled matrix); the denominator is a row-wise log-sum-exp including the
masked diagonal entry; the loss is minus the mean of
(positive − denominator). -/

noncomputable def maskNegVal : ℝ := -9e15

/-- Row normalization of `F.normalize(·, dim=1)` with `eps = 1e-12`. -/
noncomputable def normalizeRow {d : ℕ} (v : Fin d → ℝ) : Fin d → ℝ :=
  fun j => v j / max (Real.sqrt (∑ t, v t ^ 2)) 1e-12

/-- Both views are row-normalized first (source lines 69-70). -/
noncomputable def znorm {n d : ℕ} (z : Fin n → Fin d → ℝ) :
    Fin n → Fin d → ℝ :=
  fun i => normalizeRow (z i)

/-- `positives = sum(z1 * z2, dim=1) / temperature` (line 74). -/
noncomputable def clPositives {n d : ℕ} (z1 z2 : Fin n → Fin d → ℝ)
    (temperature : ℝ) : Fin n → ℝ :=
  fun i => (∑ t, znorm z1 i t * znorm z2 i t) / temperature

/-- `negatives = (z1 @ z2.T) / temperature` followed by
`masked_fill(eye, -9e15)` (lines 77-81). -/
noncomputable def clNegMasked {n d : ℕ} (z1 z2 : Fin n → Fin d → ℝ)
    (temperature : ℝ) : Fin n → Fin n → ℝ :=
  fun i j => if i = j then maskNegVal
    else (∑ t, znorm z1 i t * znorm z2 j t) / temperature

/-- `denominator = logsumexp(negatives, dim=1)` (line 85). -/
noncomputable def clDenominator {n d : ℕ} (z1 z2 : Fin n → Fin d → ℝ)
    (temperature : ℝ) : Fin n → ℝ :=
  fun i => Real.log (∑ j, Real.exp (clNegMasked z1 z2 temperature i j))

/-- `contrastive_loss(z1, z2, temperature)` (source lines 67-87):
`-mean(positives - denominator)`. -/
noncomputable def contrastive_loss {n d : ℕ} (z1 z2 : Fin n → Fin d → ℝ)
    (temperature : ℝ) : ℝ :=
  -((∑ i, (clPositives z1 z2 temperature i -
      clDenominator z1 z2 temperature i)) / n)

theorem clPositives_comm {n d : ℕ} (z1 z2 : Fin n → Fin d → ℝ)
    (temperature : ℝ) (i : Fin n) :
    clPositives z1 z2 temperature i = clPositives z2 z1 temperature i := by
  simp only [clPositives]
  congr 1
  exact Finset.sum_congr rfl (fun _ _ => mul_comm _ _)

theorem clDot_comm {n d : ℕ} (z1 z2 : Fin n → Fin d → ℝ) (i j : Fin n) :
    (∑ t, znorm z1 i t * znorm z2 j t) =
      (∑ t, znorm z2 j t * znorm z1 i t) :=
  Finset.sum_congr rfl (fun _ _ => mul_comm _ _)

/-- Claim C4 (amended): the loss IS symmetric in the two views whenever
there are at most two rows (for `n ≥ 3` the row-wise log-sum-exp of
`z1·z2ᵀ` versus its transpose breaks symmetry, see the
counterexample). -/
theorem claim_C4_amended {d : ℕ} {n : ℕ} (hn : n ≤ 2)
    (z1 z2 : Fin n → Fin d → ℝ) (temperature : ℝ) :
    contrastive_loss z1 z2 temperature = contrastive_loss z2 z1 temperature := by
  interval_cases n
  · simp [contrastive_loss]
  · simp only [contrastive_loss, Fin.sum_univ_one]
    rw [clPositives_comm]
    have hden : clDenominator z1 z2 temperature 0 =
        clDenominator z2 z1 temperature 0 := by
      simp [clDenominator, clNegMasked, Fin.sum_univ_one]
    rw [hden]
  · simp only [contrastive_loss, Fin.sum_univ_two]
    rw [clPositives_comm z1 z2 temperature 0, clPositives_comm z1 z2 temperature 1]
    have hden : clDenominator z1 z2 temperature 0 +
          clDenominator z1 z2 temperature 1 =
        clDenominator z2 z1 temperature 0 +
          clDenominator z2 z1 temperature 1 := by
      simp only [clDenominator, clNegMasked, Fin.sum_univ_two]
      rw [clDot_comm z1 z2 0 1, clDot_comm z1 z2 1 0]
      norm_num
      ring_nf
    linarith [hden]

/-- Witness for the amended C4 at a concrete two-row input. -/
theorem claim_C4_witness :
    contrastive_loss (fun _ _ : Fin 2 => (1 : ℝ))
        (fun i _ => if i = 0 then (2 : ℝ) else 3) TEMPERATURE =
      contrastive_loss (fun i _ : Fin 2 => if i = 0 then (2 : ℝ) else 3)
        (fun _ _ => (1 : ℝ)) TEMPERATURE :=
  claim_C4_amended (by norm_num) _ _ TEMPERATURE

/-- Three all-parallel one-feature rows: `z1c` normalizes to the
constant row `1`. -/
noncomputable def z1c : Fin 3 → Fin 1 → ℝ := fun _ _ => 1

/-- Rows normalizing to `1, 1, -1`: together with `z1c` this makes the
similarity matrix `z1·z2ᵀ` maximally asymmetric. -/
noncomputable def z2c : Fin 3 → Fin 1 → ℝ := fun i _ => if i = 2 then -1 else 1

theorem znorm_z1c_app (i : Fin 3) (t : Fin 1) : znorm z1c i t = 1 := by
  simp only [znorm, normalizeRow, z1c, Fin.sum_univ_one, one_pow, Real.sqrt_one]
  rw [max_eq_left (by norm_num)]
  norm_num

theorem znorm_z2c_app (j : Fin 3) (t : Fin 1) :
    znorm z2c j t = if j = 2 then (-1 : ℝ) else 1 := by
  by_cases hj : j = (2 : Fin 3)
  · subst hj
    simp only [znorm, normalizeRow, z2c, if_pos rfl, Fin.sum_univ_one,
      neg_one_sq, Real.sqrt_one]
    rw [max_eq_left (by norm_num)]
    norm_num
  · simp only [znorm, normalizeRow, z2c, if_neg hj, Fin.sum_univ_one, one_pow,
      Real.sqrt_one]
    rw [max_eq_left (by norm_num)]
    norm_num

theorem log_sum_key (u w ε : ℝ) (hu : 0 < u) (hw : 0 < w) (hε : 0 < ε)
    (hwu : w < u) :
    Real.log (ε + u + u) + Real.log (u + ε + u) + Real.log (w + w + ε) <
      Real.log (ε + u + w) + Real.log (u + ε + w) + Real.log (u + u + ε) := by
  have hP : (0 : ℝ) < u + u + ε := by linarith
  have h1 : (u + u + ε) * (w + w + ε) < (ε + u + w) * (ε + u + w) := by
    nlinarith [mul_pos (sub_pos.mpr hwu) (sub_pos.mpr hwu)]
  have h4 : (ε + u + u) * (u + ε + u) * (w + w + ε) <
      (ε + u + w) * (u + ε + w) * (u + u + ε) := by
    have e1 : (ε + u + u) * (u + ε + u) * (w + w + ε) =
        (u + u + ε) * (w + w + ε) * (u + u + ε) := by ring
    have e2 : (ε + u + w) * (u + ε + w) * (u + u + ε) =
        (ε + u + w) * (ε + u + w) * (u + u + ε) := by ring
    rw [e1, e2]
    exact mul_lt_mul_of_pos_right h1 hP
  have ha1 : (ε + u + u) ≠ 0 := ne_of_gt (by linarith)
  have ha2 : (u + ε + u) ≠ 0 := ne_of_gt (by linarith)
  have ha3 : (w + w + ε) ≠ 0 := ne_of_gt (by linarith)
  have hb1 : (ε + u + w) ≠ 0 := ne_of_gt (by linarith)
  have hb2 : (u + ε + w) ≠ 0 := ne_of_gt (by linarith)
  have hb3 : (u + u + ε) ≠ 0 := ne_of_gt (by linarith)
  have l1 : Real.log (ε + u + u) + Real.log (u + ε + u) + Real.log (w + w + ε) =
      Real.log ((ε + u + u) * (u + ε + u) * (w + w + ε)) := by
    rw [Real.log_mul (mul_ne_zero ha1 ha2) ha3, Real.log_mul ha1 ha2]
  have l2 : Real.log (ε + u + w) + Real.log (u + ε + w) + Real.log (u + u + ε) =
      Real.log ((ε + u + w) * (u + ε + w) * (u + u + ε)) := by
    rw [Real.log_mul (mul_ne_zero hb1 hb2) hb3, Real.log_mul hb1 hb2]
  rw [l1, l2]
  exact Real.log_lt_log (by positivity) h4

/-- Counterexample to claim C4: with the three-row views `z1c`, `z2c`
the loss is NOT symmetric — the positive terms agree, but the row-wise
log-sum-exp denominators of `z1·z2ᵀ` and of its transpose differ, so
`contrastive_loss(z1c, z2c) > contrastive_loss(z2c, z1c)` strictly. -/
theorem claim_C4_counterexample :
    contrastive_loss z1c z2c TEMPERATURE ≠
      contrastive_loss z2c z1c TEMPERATURE := by
  have hwu : Real.exp (-1 / TEMPERATURE) < Real.exp (1 / TEMPERATURE) := by
    apply Real.exp_lt_exp.mpr
    norm_num [TEMPERATURE]
  have hlog := log_sum_key (Real.exp (1 / TEMPERATURE))
    (Real.exp (-1 / TEMPERATURE)) (Real.exp maskNegVal) (Real.exp_pos _)
    (Real.exp_pos _) (Real.exp_pos _) hwu
  have hd120 : clDenominator z1c z2c TEMPERATURE 0 =
      Real.log (Real.exp maskNegVal + Real.exp (1 / TEMPERATURE) +
        Real.exp (-1 / TEMPERATURE)) := by
    simp [clDenominator, clNegMasked, Fin.sum_univ_three, znorm_z1c_app,
      znorm_z2c_app]
  have hd121 : clDenominator z1c z2c TEMPERATURE 1 =
      Real.log (Real.exp (1 / TEMPERATURE) + Real.exp maskNegVal +
        Real.exp (-1 / TEMPERATURE)) := by
    simp [clDenominator, clNegMasked, Fin.sum_univ_three, znorm_z1c_app,
      znorm_z2c_app]
  have hd122 : clDenominator z1c z2c TEMPERATURE 2 =
      Real.log (Real.exp (1 / TEMPERATURE) + Real.exp (1 / TEMPERATURE) +
        Real.exp maskNegVal) := by
    simp [clDenominator, clNegMasked, Fin.sum_univ_three, znorm_z1c_app,
      znorm_z2c_app]
  have hd210 : clDenominator z2c z1c TEMPERATURE 0 =
      Real.log (Real.exp maskNegVal + Real.exp (1 / TEMPERATURE) +
        Real.exp (1 / TEMPERATURE)) := by
    simp [clDenominator, clNegMasked, Fin.sum_univ_three, znorm_z1c_app,
      znorm_z2c_app]
  have hd211 : clDenominator z2c z1c TEMPERATURE 1 =
      Real.log (Real.exp (1 / TEMPERATURE) + Real.exp maskNegVal +
        Real.exp (1 / TEMPERATURE)) := by
    simp [clDenominator, clNegMasked, Fin.sum_univ_three, znorm_z1c_app,
      znorm_z2c_app]
  have hd212 : clDenominator z2c z1c TEMPERATURE 2 =
      Real.log (Real.exp (-1 / TEMPERATURE) + Real.exp (-1 / TEMPERATURE) +
        Real.exp maskNegVal) := by
    simp [clDenominator, clNegMasked, Fin.sum_univ_three, znorm_z1c_app,
      znorm_z2c_app]
  intro hEq
  simp only [contrastive_loss, Fin.sum_univ_three, Nat.cast_ofNat] at hEq
  rw [clPositives_comm z1c z2c TEMPERATURE 0,
    clPositives_comm z1c z2c TEMPERATURE 1,
    clPositives_comm z1c z2c TEMPERATURE 2, hd120, hd121, hd122, hd210, hd211,
    hd212] at hEq
  linarith [hlog]

/-! ## Dual-view encoder (source lines 90-115) and model forward pass
(source lines 140-185)

The spec places the graph/hypergraph convolution primitives
(`GCNConv`, `HypergraphConv`), the layer norms and the projection head
at the interface boundary ("treated as black-box learned functions"),
so an encoder is a record of opaque layer functions; `F.relu` is
concrete.  An edge list (and a hyperedge incidence list) is a
`List (ℕ × ℕ)`.  The forward pass's stochastic draws are explicit
inputs: the feature-mask outcome (`torch.rand_like(x) > MASK_RATIO`),
the per-undirected-edge keep decision of
`dropout_edge(..., force_undirected=True)`, the diffusion timestep
`t = random.randint(0, T_DIFFUSION - 1)` — an arbitrary element of
`Fin T_DIFFUSION`, i.e. of `[0, T)` — and the Gaussian draw
`noise = torch.randn_like(h_x)`, typed with exactly the embedding's
`n × out` shape. -/

structure EncoderLayers (n f hid out : ℕ) where
  gcn1 : (Fin n → Fin f → ℝ) → List (ℕ × ℕ) → Fin n → Fin hid → ℝ
  gcn2 : (Fin n → Fin hid → ℝ) → List (ℕ × ℕ) → Fin n → Fin hid → ℝ
  hgc1 : (Fin n → Fin f → ℝ) → List (ℕ × ℕ) → Fin n → Fin hid → ℝ
  hgc2 : (Fin n → Fin hid → ℝ) → List (ℕ × ℕ) → Fin n → Fin hid → ℝ
  ln1 : (Fin n → Fin hid → ℝ) → Fin n → Fin hid → ℝ
  ln2 : (Fin n → Fin hid → ℝ) → Fin n → Fin hid → ℝ
  project : (Fin n → Fin hid → ℝ) → Fin n → Fin out → ℝ

/-- `F.relu`, elementwise. -/
def relu {n m : ℕ} (h : Fin n → Fin m → ℝ) : Fin n → Fin m → ℝ :=
  fun i j => max (h i j) 0

/-- The always-computed graph-view hidden representation
(source lines 106-107): two `GCNConv` layers, each followed by `ln1`
and `F.relu`. -/
def graphHidden {n f hid out : ℕ} (L : EncoderLayers n f hid out)
    (x : Fin n → Fin f → ℝ) (edge_index : List (ℕ × ℕ)) :
    Fin n → Fin hid → ℝ :=
  relu (L.ln1 (L.gcn2 (relu (L.ln1 (L.gcn1 x edge_index))) edge_index))

/-- The hypergraph-view hidden representation (source lines 109-110):
two `HypergraphConv` layers through the separate weights `hgc1`,
`hgc2` and the separate norm `ln2`. -/
def hyperHidden {n f hid out : ℕ} (L : EncoderLayers n f hid out)
    (x : Fin n → Fin f → ℝ) (hyperedge_index : List (ℕ × ℕ)) :
    Fin n → Fin hid → ℝ :=
  relu (L.ln2 (L.hgc2 (relu (L.ln2 (L.hgc1 x hyperedge_index)))
    hyperedge_index))

/-- `HGCLEncoder.forward` (source lines 105-115). -/
noncomputable def HGCLEncoder.forward {n f hid out : ℕ} (L : EncoderLayers n f hid out)
    (x : Fin n → Fin f → ℝ) (edge_index : List (ℕ × ℕ))
    (hyperedge_index : Option (List (ℕ × ℕ))) : Fin n → Fin out → ℝ :=
  match hyperedge_index with
  | some hidx => L.project (fun i j =>
      (graphHidden L x edge_index i j + hyperHidden L x hidx i j) / 2)
  | none => L.project (graphHidden L x edge_index)

structure HGCLModel (n f hid out : ℕ) where
  encoder_x : EncoderLayers n f hid out
  encoder_y : EncoderLayers n f hid out
  denoiser : (Fin n → Fin out → ℝ) → List (ℕ × ℕ) → ℝ →
    Fin n → Fin out → ℝ

/-- `torch.linspace(BETA_START, BETA_END, T_DIFFUSION)` (line 148). -/
noncomputable def betaSched (t : Fin T_DIFFUSION) : ℝ :=
  BETA_START + (t : ℝ) * (BETA_END - BETA_START) / ((T_DIFFUSION : ℝ) - 1)

/-- `alpha_cum = cumprod(1 - beta)` (lines 149-150). -/
noncomputable def alphaCum (t : Fin T_DIFFUSION) : ℝ :=
  ∏ s ∈ Finset.Iic t, (1 - betaSched s)

/-- `F.mse_loss`: mean over all elements of the squared difference. -/
noncomputable def mseLoss {n m : ℕ} (a b : Fin n → Fin m → ℝ) : ℝ :=
  (∑ i, ∑ j, (a i j - b i j) ^ 2) / (n * m)

/-- The edge-dropping half of `augment` (source line 157):
`dropout_edge(edge_index, p=EDGE_DROP_RATIO, force_undirected=True)`
keeps a stored directed edge iff the Bernoulli draw for its undirected
representative kept it. -/
def dropoutEdge (edge_index : List (ℕ × ℕ)) (keep : ℕ × ℕ → Bool) :
    List (ℕ × ℕ) :=
  edge_index.filter (fun e => keep (min e.1 e.2, max e.1 e.2))

/-- The feature-masking half of `augment` (source lines 154-155):
`x * (rand_like(x) > MASK_RATIO)`. -/
def maskFeatures {n f : ℕ} (x : Fin n → Fin f → ℝ)
    (mask : Fin n → Fin f → Bool) : Fin n → Fin f → ℝ :=
  fun i j => if mask i j then x i j else 0

/-- `H_GCL.augment` (source lines 152-158). -/
def H_GCL.augment {n f : ℕ} (x : Fin n → Fin f → ℝ)
    (edge_index : List (ℕ × ℕ)) (mask : Fin n → Fin f → Bool)
    (keep : ℕ × ℕ → Bool) : (Fin n → Fin f → ℝ) × List (ℕ × ℕ) :=
  (maskFeatures x mask, dropoutEdge edge_index keep)

/-- `H_GCL.forward` (source lines 160-185), with the stochastic draws
passed explicitly and the loss-mixing weight `gamma` (fixed to `GAMMA`
for a run) as a parameter.  Returns `(loss, h_x.detach())`; `detach`
is the identity on values. -/
noncomputable def H_GCL.forward {n f hid out : ℕ} (M : HGCLModel n f hid out)
    (gamma : ℝ) (x : Fin n → Fin f → ℝ) (edge_index : List (ℕ × ℕ))
    (hyperedge_index : List (ℕ × ℕ)) (mask : Fin n → Fin f → Bool)
    (keep : ℕ × ℕ → Bool) (t : Fin T_DIFFUSION)
    (noise : Fin n → Fin out → ℝ) : ℝ × (Fin n → Fin out → ℝ) :=
  let x_bar := (H_GCL.augment x edge_index mask keep).1
  let edge_index_bar := (H_GCL.augment x edge_index mask keep).2
  let h_x := HGCLEncoder.forward M.encoder_x x_bar edge_index_bar none
  let h_y := HGCLEncoder.forward M.encoder_y x_bar edge_index_bar
    (some hyperedge_index)
  let loss_c := contrastive_loss h_x h_y TEMPERATURE
  let h_x_noisy := fun i j => Real.sqrt (alphaCum t) * h_x i j +
    Real.sqrt (1 - alphaCum t) * noise i j
  let h_x_hat := M.denoiser h_x_noisy edge_index_bar
    ((t : ℝ) / (T_DIFFUSION : ℝ))
  let loss_g := mseLoss h_x_hat h_x
  (gamma * loss_c + (1 - gamma) * loss_g, h_x)

/-- The graph-view embedding `h_x` of a forward call (line 165). -/
noncomputable def fwdHx {n f hid out : ℕ} (M : HGCLModel n f hid out)
    (x : Fin n → Fin f → ℝ) (edge_index : List (ℕ × ℕ))
    (mask : Fin n → Fin f → Bool) (keep : ℕ × ℕ → Bool) :
    Fin n → Fin out → ℝ :=
  HGCLEncoder.forward M.encoder_x (H_GCL.augment x edge_index mask keep).1
    (H_GCL.augment x edge_index mask keep).2 none

/-- The hypergraph-view embedding `h_y` of a forward call (line 166). -/
noncomputable def fwdHy {n f hid out : ℕ} (M : HGCLModel n f hid out)
    (x : Fin n → Fin f → ℝ) (edge_index : List (ℕ × ℕ))
    (hyperedge_index : List (ℕ × ℕ)) (mask : Fin n → Fin f → Bool)
    (keep : ℕ × ℕ → Bool) : Fin n → Fin out → ℝ :=
  HGCLEncoder.forward M.encoder_y (H_GCL.augment x edge_index mask keep).1
    (H_GCL.augment x edge_index mask keep).2 (some hyperedge_index)

/-- The denoiser output `h_x_hat` of a forward call (lines 172-179). -/
noncomputable def fwdHxHat {n f hid out : ℕ} (M : HGCLModel n f hid out)
    (x : Fin n → Fin f → ℝ) (edge_index : List (ℕ × ℕ))
    (mask : Fin n → Fin f → Bool) (keep : ℕ × ℕ → Bool)
    (t : Fin T_DIFFUSION) (noise : Fin n → Fin out → ℝ) :
    Fin n → Fin out → ℝ :=
  M.denoiser
    (fun i j => Real.sqrt (alphaCum t) * fwdHx M x edge_index mask keep i j +
      Real.sqrt (1 - alphaCum t) * noise i j)
    (dropoutEdge edge_index keep) ((t : ℝ) / (T_DIFFUSION : ℝ))

/-! ## Claims C7, C8, C9, C10 -/

/-- Claim C9: the encoder always computes the graph-view path (two
graph convolutions, each followed by `ln1` and ReLU); with a hyperedge
incidence list it additionally computes the hypergraph-view path
through the separate weights `hgc1`/`hgc2` and norm `ln2` and projects
the elementwise average of the two hidden representations (both of the
shared hidden width, so the average typechecks); without one it
projects the graph-view hidden representation alone — in which case
the hypergraph-view components are irrelevant to the output. -/
theorem claim_C9 {n f hid out : ℕ} (L : EncoderLayers n f hid out)
    (x : Fin n → Fin f → ℝ) (edge_index : List (ℕ × ℕ)) :
    (∀ hidx, HGCLEncoder.forward L x edge_index (some hidx) =
      L.project (fun i j =>
        (graphHidden L x edge_index i j + hyperHidden L x hidx i j) / 2)) ∧
    HGCLEncoder.forward L x edge_index none =
      L.project (graphHidden L x edge_index) ∧
    (∀ L' : EncoderLayers n f hid out, L'.gcn1 = L.gcn1 → L'.gcn2 = L.gcn2 →
      L'.ln1 = L.ln1 → L'.project = L.project →
      HGCLEncoder.forward L' x edge_index none =
        HGCLEncoder.forward L x edge_index none) := by
  refine ⟨fun hidx => rfl, rfl, ?_⟩
  intro L' h1 h2 h3 h4
  simp only [HGCLEncoder.forward, graphHidden, h1, h2, h3, h4]

/-- A concrete trivial encoder used to instantiate the forward-pass
claims. -/
def L0 : EncoderLayers 1 1 1 1 :=
  { gcn1 := fun _ _ _ _ => 0, gcn2 := fun _ _ _ _ => 0
    hgc1 := fun _ _ _ _ => 0, hgc2 := fun _ _ _ _ => 0
    ln1 := fun h => h, ln2 := fun h => h, project := fun h => h }

def x0 : Fin 1 → Fin 1 → ℝ := fun _ _ => 0

/-- Witness for C9 at the trivial encoder. -/
theorem claim_C9_witness :
    HGCLEncoder.forward L0 x0 [] (some []) =
      L0.project (fun i j =>
        (graphHidden L0 x0 [] i j + hyperHidden L0 x0 [] i j) / 2) ∧
    HGCLEncoder.forward L0 x0 [] none = L0.project (graphHidden L0 x0 []) ∧
    HGCLEncoder.forward L0 x0 [] none = HGCLEncoder.forward L0 x0 [] none := by
  obtain ⟨ha, hb, hc⟩ := claim_C9 L0 x0 []
  exact ⟨ha [], hb, hc L0 rfl rfl rfl rfl⟩

/-- Claim C7: the forward pass's returned loss is exactly
`gamma * contrastive + (1 - gamma) * diffusion`; and at `gamma = 1` the
returned loss does not depend on the denoiser at all (two models
differing only in their denoiser return the same loss). -/
theorem claim_C7 {n f hid out : ℕ} (M : HGCLModel n f hid out) (gamma : ℝ)
    (x : Fin n → Fin f → ℝ) (edge_index hyperedge_index : List (ℕ × ℕ))
    (mask : Fin n → Fin f → Bool) (keep : ℕ × ℕ → Bool)
    (t : Fin T_DIFFUSION) (noise : Fin n → Fin out → ℝ) :
    (H_GCL.forward M gamma x edge_index hyperedge_index mask keep t noise).1 =
      gamma * contrastive_loss (fwdHx M x edge_index mask keep)
          (fwdHy M x edge_index hyperedge_index mask keep) TEMPERATURE +
        (1 - gamma) * mseLoss (fwdHxHat M x edge_index mask keep t noise)
          (fwdHx M x edge_index mask keep) ∧
    (∀ den1 den2,
      (H_GCL.forward { M with denoiser := den1 } 1 x edge_index
          hyperedge_index mask keep t noise).1 =
        (H_GCL.forward { M with denoiser := den2 } 1 x edge_index
          hyperedge_index mask keep t noise).1) := by
  refine ⟨rfl, ?_⟩
  intro den1 den2
  simp only [H_GCL.forward]
  ring

/-- Claim C8: the forward pass noises the graph-view embedding
elementwise as `sqrt(alpha_cum[t]) * h_x + sqrt(1 - alpha_cum[t]) *
noise` (the timestep `t` ranges over `Fin T_DIFFUSION`, i.e. `[0, T)`,
and the noise draw has the embedding's own `n × out` shape by type),
and invokes the denoiser on that noised embedding with the normalized
timestep `t / T` and with the augmented (edge-dropped) adjacency
`dropoutEdge edge_index keep` — which, as the second conjunct shows on
a one-edge graph whose draw removes the edge, can differ from the
original edge list. -/
theorem claim_C8 {n f hid out : ℕ} (M : HGCLModel n f hid out) (gamma : ℝ)
    (x : Fin n → Fin f → ℝ) (edge_index hyperedge_index : List (ℕ × ℕ))
    (mask : Fin n → Fin f → Bool) (keep : ℕ × ℕ → Bool)
    (t : Fin T_DIFFUSION) (noise : Fin n → Fin out → ℝ) :
    (H_GCL.forward M gamma x edge_index hyperedge_index mask keep t noise).1 =
      gamma * contrastive_loss (fwdHx M x edge_index mask keep)
          (fwdHy M x edge_index hyperedge_index mask keep) TEMPERATURE +
        (1 - gamma) * mseLoss
          (M.denoiser
            (fun i j => Real.sqrt (alphaCum t) *
                fwdHx M x edge_index mask keep i j +
              Real.sqrt (1 - alphaCum t) * noise i j)
            (dropoutEdge edge_index keep) ((t : ℝ) / (T_DIFFUSION : ℝ)))
          (fwdHx M x edge_index mask keep) ∧
    dropoutEdge [(0, 1)] (fun _ => false) = [] ∧
    dropoutEdge [(0, 1)] (fun _ => false) ≠ [(0, 1)] := by
  exact ⟨rfl, rfl, by decide⟩

/-- Claim C10: the embedding returned by the forward pass is exactly
the graph-view encoder's projected output on the augmented input
(`detach` only severs autograd, the value is `h_x`); it is unchanged
under any replacement of the hypergraph-view encoder; and two
hypergraph-view encoders whose embeddings produce the same contrastive
loss against `h_x` yield identical forward outputs — the hypergraph
view reaches the result only through the contrastive term. -/
theorem claim_C10 {n f hid out : ℕ} (M : HGCLModel n f hid out) (gamma : ℝ)
    (x : Fin n → Fin f → ℝ) (edge_index hyperedge_index : List (ℕ × ℕ))
    (mask : Fin n → Fin f → Bool) (keep : ℕ × ℕ → Bool)
    (t : Fin T_DIFFUSION) (noise : Fin n → Fin out → ℝ) :
    (H_GCL.forward M gamma x edge_index hyperedge_index mask keep t noise).2 =
      fwdHx M x edge_index mask keep ∧
    (∀ Ly Ly' : EncoderLayers n f hid out,
      (H_GCL.forward { M with encoder_y := Ly } gamma x edge_index
          hyperedge_index mask keep t noise).2 =
        (H_GCL.forward { M with encoder_y := Ly' } gamma x edge_index
          hyperedge_index mask keep t noise).2) ∧
    (∀ Ly Ly' : EncoderLayers n f hid out,
      contrastive_loss (fwdHx M x edge_index mask keep)
          (fwdHy { M with encoder_y := Ly } x edge_index hyperedge_index
            mask keep) TEMPERATURE =
        contrastive_loss (fwdHx M x edge_index mask keep)
          (fwdHy { M with encoder_y := Ly' } x edge_index hyperedge_index
            mask keep) TEMPERATURE →
      H_GCL.forward { M with encoder_y := Ly } gamma x edge_index
          hyperedge_index mask keep t noise =
        H_GCL.forward { M with encoder_y := Ly' } gamma x edge_index
          hyperedge_index mask keep t noise) := by
  refine ⟨rfl, fun Ly Ly' => rfl, ?_⟩
  intro Ly Ly' h
  simp only [fwdHx, fwdHy] at h
  simp only [H_GCL.forward]
  rw [h]

/-- A concrete trivial model used by the witnesses. -/
def M0 : HGCLModel 1 1 1 1 := { encoder_x := L0, encoder_y := L0, denoiser := fun h _ _ => h }

/-- Witness for C10 at the trivial model. -/
theorem claim_C10_witness :
    (H_GCL.forward M0 GAMMA x0 [] [] (fun _ _ => true) (fun _ => true)
        ⟨0, by norm_num [T_DIFFUSION]⟩ (fun _ _ => 0)).2 =
      fwdHx M0 x0 [] (fun _ _ => true) (fun _ => true) ∧
    H_GCL.forward { M0 with encoder_y := L0 } GAMMA x0 [] []
        (fun _ _ => true) (fun _ => true) ⟨0, by norm_num [T_DIFFUSION]⟩
        (fun _ _ => 0) =
      H_GCL.forward { M0 with encoder_y := L0 } GAMMA x0 [] []
        (fun _ _ => true) (fun _ => true) ⟨0, by norm_num [T_DIFFUSION]⟩
        (fun _ _ => 0) := by
  obtain ⟨h1, _, h3⟩ := claim_C10 M0 GAMMA x0 [] [] (fun _ _ => true)
    (fun _ => true) ⟨0, by norm_num [T_DIFFUSION]⟩ (fun _ _ => 0)
  exact ⟨h1, h3 L0 L0 rfl⟩
